import Mathlib

/-
Verification development for the abeep tone generator.

The embedding covers:
* the quarter-period waveform table `sintable` from src/unnamed/part_001
  (sintable.h), with the unsigned 32-bit index arithmetic made explicit;
* the streaming-buffer pipeline from src/abeep.c: `send_buffer_to_card`
  (lines 226-242), `play_buffered` (245-259), `play_silence` (262-274),
  `play_blocks` (277-297) and `cleanup` (300-305).  The ALSA calls are
  modelled by an oracle: a list of per-write sink responses.  Process
  termination on a fatal error and divergence (an infinite retry loop)
  are modelled by the `Res.fatal` and `Res.stuck` outcomes; loops that
  the C code bounds only through the sink are driven by explicit fuel.
  Arithmetic that the C code performs in `unsigned int` is reduced
  modulo 2^32 where it can overflow.
* the phase-accumulator oscillator and the silence transition of the
  live-synthesis revision.  The abeep.c of that revision is not among the
  source files (only its sintable.h is), so those two components are
  modelled from the spec, as marked on each definition.

Ghost state (`pushed`, `events`, `flushes`) records the sample stream
handed to the buffer, the externally visible sink interactions, and the
number of flush calls; the C code has the same effects, just not
reified as data.
-/

namespace Abeep

/-- Modulus of C `unsigned int` arithmetic (the index type of `sintable`). -/
def UINT_MOD : Nat := 2 ^ 32

/-- Subtraction of C `unsigned int` values: `a - b` reduced modulo 2^32,
wrapping around on underflow exactly as the hardware does. -/
def usub (a b : Nat) : Nat := (a + (UINT_MOD - b % UINT_MOD)) % UINT_MOD

/-- `SINTABLE_PHYSICAL_SIZE` from sintable.h: the number of stored
quarter-period samples. -/
def SINTABLE_PHYSICAL_SIZE : Nat := 65536

/-- `SINTABLE_SIZE` from sintable.h: the logical period is four times the
physical table. -/
def SINTABLE_SIZE : Nat := SINTABLE_PHYSICAL_SIZE * 4

/-- Reading `SINTABLE_PHYSICAL[j]` for a physical table of size `P`:
in bounds gives the stored sample, out of bounds is an invalid access
(undefined behaviour in C), modelled as `none`. -/
def tableLookup (P : Nat) (table : Nat → Int) (j : Nat) : Option Int :=
  if j < P then some (table j) else none

/-- The function `sintable` from sintable.h, lines 10-19, with the physical
size `P` abstracting the constant `SINTABLE_PHYSICAL_SIZE` and the table
contents abstracted as `table`.  Every subtraction on the index is the C
`unsigned int` subtraction `usub`. -/
def sintable (P : Nat) (table : Nat → Int) (index : Nat) : Option Int :=
  if index < P then
    tableLookup P table index
  else if index < 2 * P then
    tableLookup P table (usub (usub P (usub index P)) 1)
  else if index < 3 * P then
    Option.map (fun v => -v) (tableLookup P table (usub index (2 * P)))
  else
    Option.map (fun v => -v) (tableLookup P table (usub (usub P (usub index (3 * P))) 1))

/-- Modelled from the spec: the contents of `SINTABLE_PHYSICAL` live in
sintable.c, which is not among the source files.  The spec constrains the
data only to be a quarter-period rising from 0 to the 16-bit amplitude
ceiling, monotonically non-decreasing; this stand-in satisfies that
invariant and is used solely to instantiate theorems at concrete inputs. -/
def SINTABLE_PHYSICAL (i : Nat) : Int := min (Int.ofNat i) 32767

/-- Modulus of the 64-bit phase accumulator. -/
def U64 : Nat := 2 ^ 64

/-- Modelled from the spec: the table index the oscillator derives from a
64-bit phase value, `(phase + 2^45) >> 46` in `uint64_t` arithmetic
(section 4.2; the oscillator itself is in the live-synthesis abeep.c,
absent from the source files). -/
def oscIndex (ph : Nat) : Nat := ((ph + 2 ^ 45) % U64) >>> 46

/-- Modelled from the spec: the sample the oscillator emits for a phase
value: the waveform table consulted at `oscIndex`.  The index is provably
below `SINTABLE_SIZE`, so the default of the out-of-bounds case is never
used. -/
def oscSample (table : Nat → Int) (ph : Nat) : Int :=
  (sintable SINTABLE_PHYSICAL_SIZE table (oscIndex ph)).getD 0

/-- Modelled from the spec: the oscillator state of section 3 — the 64-bit
phase accumulator and the last frequency control word (both `uint64_t`,
held here as `Nat` reduced modulo `U64` by every operation). -/
structure OscState where
  phase : Nat
  last : Nat
deriving DecidableEq

/-- Modelled from the spec: the frequency control word
`fcw = frequency_hz * logical_period_length / sample_rate * 2^46`
(section 4.2), computed exactly over the rationals and truncated to an
integer. -/
def fcwOf (freq : ℚ) (rate : Nat) : Nat :=
  (freq * (SINTABLE_SIZE : ℚ) / (rate : ℚ) * 2 ^ 46).floor.toNat

/-- Modelled from the spec: the per-sample loop of `generate` (section
4.2): accumulate `phase += fcw` in 64-bit arithmetic, then emit the table
sample at `oscIndex phase`.  Returns the emitted samples and the final
phase. -/
def genLoop (table : Nat → Int) (fcw : Nat) : Nat → Nat → List Int × Nat
  | 0, phase => ([], phase)
  | n + 1, phase =>
    (oscSample table ((phase + fcw) % U64) :: (genLoop table fcw n ((phase + fcw) % U64)).1,
      (genLoop table fcw n ((phase + fcw) % U64)).2)

/-- Modelled from the spec: `generate(frequency_hz, sample_count)` of
section 4.2: compute the frequency control word, run the accumulator loop
for `n` samples, and record the control word as the last one. -/
def generate (table : Nat → Int) (rate : Nat) (freq : ℚ) (n : Nat) (st : OscState) :
    List Int × OscState :=
  let fcw := fcwOf freq rate
  let run := genLoop table fcw n st.phase
  (run.1, ⟨run.2, fcw⟩)

/-- Modelled from the spec: `generate_silence(sample_count)` of section
4.3: keep advancing the phase accumulator by the last control word and
emit table samples; once the magnitude of an emitted sample falls below 1000,
emit literal zero for every remaining sample and reset the phase
accumulator and the last control word to zero.  Arguments are the sample
count, the phase accumulator and the last control word; the result is the
emitted samples and the final (phase, last) pair. -/
def genSilence (table : Nat → Int) : Nat → Nat → Nat → List Int × Nat × Nat
  | 0, phase, last => ([], phase, last)
  | n + 1, phase, last =>
    if (oscSample table ((phase + last) % U64)).natAbs < 1000 then
      (oscSample table ((phase + last) % U64) :: List.replicate n 0, 0, 0)
    else
      (oscSample table ((phase + last) % U64) ::
          (genSilence table n ((phase + last) % U64) last).1,
        (genSilence table n ((phase + last) % U64) last).2)

/-- The decaying waveform tail available to the silence transition:
sample `j` of the continuation of the last tone from `phase` with control
word `last`. -/
def silTail (table : Nat → Int) (last phase j : Nat) : Int :=
  oscSample table ((phase + (j + 1) * last) % U64)

/-- One result of `snd_pcm_writei`: a non-negative frame count, `-EPIPE`
(underrun), or any other negative value (fatal). -/
inductive WriteResult where
  | accepted (frames : Nat)
  | underrun
  | fatalError
deriving DecidableEq

/-- Externally visible effects of the streaming pipeline: frames handed
to the sound card, the underrun diagnostic, `snd_pcm_prepare`, the fatal
diagnostic, `snd_pcm_drain` and `snd_pcm_close`. -/
inductive Event where
  | wrote (samples : List Int)
  | diagUnderrun
  | prepare
  | diagFatal
  | drained
  | closed
deriving DecidableEq

/-- The mutable globals of abeep.c (lines 54-58) plus the sink oracle and
ghost observation state: `bufferSize` and `buffer` model `buffer_size`
and the first `buffer_used` cells of `buffer`; `oracle` holds the pending
`snd_pcm_writei` results; `events` the externally visible effects;
`pushed` every sample handed to the buffer; `flushes` the number of
`send_buffer_to_card` calls made. -/
structure PState where
  bufferSize : Nat
  buffer : List Int
  oracle : List WriteResult
  events : List Event
  pushed : List Int
  flushes : Nat
deriving DecidableEq

/-- Outcome of a pipeline computation: normal return, process termination
via `exit(EXIT_FAILURE)`, or divergence (oracle/fuel exhausted).  Each
outcome carries the state at that point. -/
inductive Res where
  | ok (s : PState)
  | fatal (s : PState)
  | stuck (s : PState)
deriving DecidableEq

/-- The state carried by an outcome. -/
def Res.state : Res → PState
  | .ok s => s
  | .fatal s => s
  | .stuck s => s

/-- The loop body of `send_buffer_to_card` (src/abeep.c lines 229-241):
while samples remain, issue one write; `-EPIPE` prints the underrun
warning, re-prepares the device and returns with the buffer untouched;
another error prints a diagnostic and exits; otherwise the accepted
frames are shifted out with `memmove` and the loop continues.  One oracle
entry is consumed per write. -/
def sendLoop (size : Nat) (buf : List Int) (orc : List WriteResult)
    (evs : List Event) (psh : List Int) (fl : Nat) : Res :=
  match buf with
  | [] => .ok ⟨size, [], orc, evs, psh, fl⟩
  | b :: bs =>
    match orc with
    | [] => .stuck ⟨size, b :: bs, [], evs, psh, fl⟩
    | .accepted k :: rest =>
      sendLoop size ((b :: bs).drop (min k (b :: bs).length)) rest
        (evs ++ [.wrote ((b :: bs).take (min k (b :: bs).length))]) psh fl
    | .underrun :: rest =>
      .ok ⟨size, b :: bs, rest, evs ++ [.diagUnderrun, .prepare], psh, fl⟩
    | .fatalError :: rest =>
      .fatal ⟨size, b :: bs, rest, evs ++ [.diagFatal], psh, fl⟩

/-- `send_buffer_to_card` (src/abeep.c lines 226-242); the ghost flush
counter is incremented on entry. -/
def send_buffer_to_card (s : PState) : Res :=
  sendLoop s.bufferSize s.buffer s.oracle s.events s.pushed (s.flushes + 1)

/-- The inner loop shared by `play_buffered` and `play_silence`
(src/abeep.c lines 250-251 and 266-267):
`while (buffer_used == buffer_size) send_buffer_to_card();`. -/
def waitForSpace (fuel : Nat) (s : PState) : Res :=
  if s.buffer.length = s.bufferSize then
    match fuel with
    | 0 => .stuck s
    | f + 1 =>
      match send_buffer_to_card s with
      | .ok s1 => waitForSpace f s1
      | r => r
  else .ok s

/-- `play_buffered` (src/abeep.c lines 245-259): while samples remain,
wait for space, then copy `min length avail` samples into the buffer. -/
def play_buffered (fuel : Nat) (data : List Int) (s : PState) : Res :=
  match data with
  | [] => .ok s
  | _ :: _ =>
    match fuel with
    | 0 => .stuck s
    | f + 1 =>
      match waitForSpace f s with
      | .ok s1 =>
        play_buffered f (data.drop (min data.length (s1.bufferSize - s1.buffer.length)))
          ⟨s1.bufferSize,
            s1.buffer ++ data.take (min data.length (s1.bufferSize - s1.buffer.length)),
            s1.oracle, s1.events,
            s1.pushed ++ data.take (min data.length (s1.bufferSize - s1.buffer.length)),
            s1.flushes⟩
      | r => r

/-- `play_silence` (src/abeep.c lines 262-274): identical to
`play_buffered` but the copied samples are zeros from `memset`. -/
def play_silence (fuel : Nat) (len : Nat) (s : PState) : Res :=
  match len with
  | 0 => .ok s
  | _ + 1 =>
    match fuel with
    | 0 => .stuck s
    | f + 1 =>
      match waitForSpace f s with
      | .ok s1 =>
        play_silence f (len - min len (s1.bufferSize - s1.buffer.length))
          ⟨s1.bufferSize,
            s1.buffer ++ List.replicate (min len (s1.bufferSize - s1.buffer.length)) 0,
            s1.oracle, s1.events,
            s1.pushed ++ List.replicate (min len (s1.bufferSize - s1.buffer.length)) 0,
            s1.flushes⟩
      | r => r

/-- One node of `beep_parms_t` (src/abeep.c lines 42-51) as consumed by
`play_blocks`: the precomputed block stands in for `blk`/`blk_frames`. -/
structure beep_parms_t where
  length : Nat
  reps : Nat
  delay : Nat
  end_delay : Bool
  blk : List Int
deriving DecidableEq

/-- The tone part of one repetition in `play_blocks` (src/abeep.c lines
284-289): `while (duration_in_frames > blk_frames) { play the whole
block; }` then play the first `duration_in_frames` samples of the
block. -/
def play_tone_loop (fuel : Nat) (blk : List Int) (dur : Nat) (s : PState) : Res :=
  if blk.length < dur then
    match fuel with
    | 0 => .stuck s
    | f + 1 =>
      match play_buffered f blk s with
      | .ok s1 => play_tone_loop f blk (dur - blk.length) s1
      | r => r
  else play_buffered fuel (blk.take dur) s

/-- The repetition loop of `play_blocks` (src/abeep.c lines 282-294),
counting the remaining repetitions down: each repetition plays the tone
for `(length * sample_rate + 500) / 1000` frames — the products are
computed in `unsigned int`, hence the reduction modulo 2^32 — and then,
when this is not the last repetition or `end_delay` is set, plays
silence for the identically computed `delay` frames. -/
def play_reps (fuel rate : Nat) (p : beep_parms_t) : Nat → PState → Res
  | 0, s => .ok s
  | r + 1, s =>
    match play_tone_loop fuel p.blk (((p.length * rate + 500) % UINT_MOD) / 1000) s with
    | .ok s1 =>
      if 0 < r ∨ p.end_delay = true then
        match play_silence fuel (((p.delay * rate + 500) % UINT_MOD) / 1000) s1 with
        | .ok s2 => play_reps fuel rate p r s2
        | r2 => r2
      else play_reps fuel rate p r s1
    | r1 => r1

/-- `play_blocks` (src/abeep.c lines 277-297): process the nodes in list
order. -/
def play_blocks (fuel rate : Nat) : List beep_parms_t → PState → Res
  | [], s => .ok s
  | p :: ps, s =>
    match play_reps fuel rate p p.reps s with
    | .ok s1 => play_blocks fuel rate ps s1
    | r => r

/-- `cleanup` (src/abeep.c lines 300-305): flush until the buffer is
empty, then drain and close the device. -/
def cleanup (fuel : Nat) (s : PState) : Res :=
  match s.buffer with
  | [] => .ok ⟨s.bufferSize, [], s.oracle, s.events ++ [.drained, .closed], s.pushed, s.flushes⟩
  | _ :: _ =>
    match fuel with
    | 0 => .stuck s
    | f + 1 =>
      match send_buffer_to_card s with
      | .ok s1 => cleanup f s1
      | r => r

/-- The three operations the streaming-buffer contract of the spec exposes:
append one sample (`play_buffered` of a single sample), flush
(`send_buffer_to_card`) and drain (`cleanup`). -/
inductive BufOp where
  | append (x : Int)
  | flush
  | drain
deriving DecidableEq

/-- Run one buffer operation. -/
def runOp (fuel : Nat) (op : BufOp) (s : PState) : Res :=
  match op with
  | .append x => play_buffered fuel [x] s
  | .flush => send_buffer_to_card s
  | .drain => cleanup fuel s

/-- Run a sequence of buffer operations, stopping at the first abnormal
outcome. -/
def runOps (fuel : Nat) : List BufOp → PState → Res
  | [], s => .ok s
  | op :: ops, s =>
    match runOp fuel op s with
    | .ok s1 => runOps fuel ops s1
    | r => r

/-- The sample stream the tone part of one repetition hands to the
buffer: the block repeated while more than a block of frames remains,
then a front portion of the block.  The fuel mirrors `play_tone_loop`. -/
def toneTrace (fuel : Nat) (blk : List Int) (dur : Nat) : List Int :=
  if blk.length < dur then
    match fuel with
    | 0 => []
    | f + 1 => blk ++ toneTrace f blk (dur - blk.length)
  else blk.take dur

/-- The sample stream of one silence segment. -/
def silenceTrace (rate delay : Nat) : List Int :=
  List.replicate (((delay * rate + 500) % UINT_MOD) / 1000) 0

/-- The sample stream of the last `r` repetitions of a node. -/
def repsTrace (fuel rate : Nat) (p : beep_parms_t) : Nat → List Int
  | 0 => []
  | r + 1 =>
    toneTrace fuel p.blk (((p.length * rate + 500) % UINT_MOD) / 1000)
      ++ (if 0 < r ∨ p.end_delay = true then silenceTrace rate p.delay else [])
      ++ repsTrace fuel rate p r

/-- The sample stream of a whole node list. -/
def blocksTrace (fuel rate : Nat) : List beep_parms_t → List Int
  | [] => []
  | p :: ps => repsTrace fuel rate p p.reps ++ blocksTrace fuel rate ps

/-- A concrete table used only to instantiate the silence-transition
theorem at a decidable input: one spike above the threshold at physical
index 1. -/
def spikeTable (i : Nat) : Int := if i = 1 then 1500 else 0

theorem usub_eq_sub {a b : Nat} (h1 : b ≤ a) (h2 : a < UINT_MOD) : usub a b = a - b := by
  simp only [usub, UINT_MOD] at *
  omega

/-- The four branches of `sintable`, evaluated for an in-range logical
index: shared by the C7 and C10 theorems. -/
theorem sintable_cases (P : Nat) (table : Nat → Int) (i : Nat) (hP : 4 * P ≤ UINT_MOD) :
    (i < P → sintable P table i = some (table i)) ∧
    (P ≤ i → i < 2 * P → sintable P table i = some (table (P - (i - P) - 1))) ∧
    (2 * P ≤ i → i < 3 * P → sintable P table i = some (-table (i - 2 * P))) ∧
    (3 * P ≤ i → i < 4 * P → sintable P table i = some (-table (P - (i - 3 * P) - 1))) := by
  have hM : (2 : Nat) ^ 32 = 4294967296 := by norm_num
  simp only [UINT_MOD] at hP
  refine ⟨?_, ?_, ?_, ?_⟩
  · intro h
    simp only [sintable, tableLookup]
    rw [if_pos h, if_pos h]
  · intro hlo hhi
    have e1 : usub i P = i - P := usub_eq_sub hlo (by simp only [UINT_MOD]; omega)
    have e2 : usub P (i - P) = P - (i - P) :=
      usub_eq_sub (by omega) (by simp only [UINT_MOD]; omega)
    have e3 : usub (P - (i - P)) 1 = P - (i - P) - 1 :=
      usub_eq_sub (by omega) (by simp only [UINT_MOD]; omega)
    simp only [sintable, tableLookup, e1, e2, e3]
    rw [if_neg (by omega), if_pos hhi, if_pos (by omega)]
  · intro hlo hhi
    have e1 : usub i (2 * P) = i - 2 * P := usub_eq_sub hlo (by simp only [UINT_MOD]; omega)
    simp only [sintable, tableLookup, e1]
    rw [if_neg (by omega), if_neg (by omega), if_pos hhi, if_pos (by omega)]
    rfl
  · intro hlo hhi
    have e1 : usub i (3 * P) = i - 3 * P := usub_eq_sub hlo (by simp only [UINT_MOD]; omega)
    have e2 : usub P (i - 3 * P) = P - (i - 3 * P) :=
      usub_eq_sub (by omega) (by simp only [UINT_MOD]; omega)
    have e3 : usub (P - (i - 3 * P)) 1 = P - (i - 3 * P) - 1 :=
      usub_eq_sub (by omega) (by simp only [UINT_MOD]; omega)
    simp only [sintable, tableLookup, e1, e2, e3]
    rw [if_neg (by omega), if_neg (by omega), if_neg (by omega), if_pos (by omega)]
    rfl

/-- C7: for every physical table size P and every logical index i in
[0, 4P), `sintable` returns `table i` on [0,P), `table (P-(i-P)-1)` on
[P,2P), `-table (i-2P)` on [2P,3P) and `-table (P-(i-3P)-1)` on [3P,4P);
the function is pure, so there are no side effects.  (P abstracts the
constant `SINTABLE_PHYSICAL_SIZE`; the hypothesis keeps the C `unsigned
int` index arithmetic below its modulus, as the constant value 65536
does.) -/
theorem claim_C7 (P : Nat) (table : Nat → Int) (i : Nat) (hP : 4 * P ≤ UINT_MOD) :
    (i < P → sintable P table i = some (table i)) ∧
    (P ≤ i → i < 2 * P → sintable P table i = some (table (P - (i - P) - 1))) ∧
    (2 * P ≤ i → i < 3 * P → sintable P table i = some (-table (i - 2 * P))) ∧
    (3 * P ≤ i → i < 4 * P → sintable P table i = some (-table (P - (i - 3 * P) - 1))) :=
  sintable_cases P table i hP

/-- Witness for C7: the falling positive quarter at a concrete index. -/
theorem claim_C7_witness :
    sintable 65536 SINTABLE_PHYSICAL 70000 =
      some (SINTABLE_PHYSICAL (65536 - (70000 - 65536) - 1)) :=
  (claim_C7 65536 SINTABLE_PHYSICAL 70000 (by decide)).2.1 (by decide) (by decide)

/-- C10: every logical index below `4 * SINTABLE_PHYSICAL_SIZE` resolves
to an in-bounds physical index, and every `unsigned int` index at or
above it reaches the final branch, whose physical index
`P - (index - 3P) - 1` wraps around below zero and lands outside the
table, so the lookup is invalid (`none`): the function performs no
modular reduction and has no error path, so the caller must reduce the
index modulo the logical period. -/
theorem claim_C10 (table : Nat → Int) :
    (∀ i, i < 4 * SINTABLE_PHYSICAL_SIZE →
      (sintable SINTABLE_PHYSICAL_SIZE table i).isSome = true) ∧
    (∀ i, 4 * SINTABLE_PHYSICAL_SIZE ≤ i → i < UINT_MOD →
      sintable SINTABLE_PHYSICAL_SIZE table i = none) := by
  constructor
  · intro i hi
    simp only [SINTABLE_PHYSICAL_SIZE] at hi
    have h := sintable_cases SINTABLE_PHYSICAL_SIZE table i (by decide)
    simp only [SINTABLE_PHYSICAL_SIZE] at h
    rcases Nat.lt_or_ge i 65536 with h1 | h1
    · rw [show SINTABLE_PHYSICAL_SIZE = 65536 from rfl, h.1 h1]; rfl
    rcases Nat.lt_or_ge i (2 * 65536) with h2 | h2
    · rw [show SINTABLE_PHYSICAL_SIZE = 65536 from rfl, h.2.1 h1 h2]; rfl
    rcases Nat.lt_or_ge i (3 * 65536) with h3 | h3
    · rw [show SINTABLE_PHYSICAL_SIZE = 65536 from rfl, h.2.2.1 h2 h3]; rfl
    · rw [show SINTABLE_PHYSICAL_SIZE = 65536 from rfl, h.2.2.2 h3 (by omega)]; rfl
  · intro i h4 hM
    simp only [SINTABLE_PHYSICAL_SIZE] at h4
    simp only [UINT_MOD] at hM
    have hj : 65536 ≤ usub (usub 65536 (usub i (3 * 65536))) 1 := by
      simp only [usub, UINT_MOD]
      omega
    simp only [sintable, SINTABLE_PHYSICAL_SIZE, tableLookup]
    rw [if_neg (by omega), if_neg (by omega), if_neg (by omega), if_neg (by omega)]
    rfl

/-- Witness for C10: both parts at concrete indices. -/
theorem claim_C10_witness :
    (sintable SINTABLE_PHYSICAL_SIZE SINTABLE_PHYSICAL 5).isSome = true ∧
    sintable SINTABLE_PHYSICAL_SIZE SINTABLE_PHYSICAL (4 * SINTABLE_PHYSICAL_SIZE) = none :=
  ⟨(claim_C10 SINTABLE_PHYSICAL).1 5 (by decide),
    (claim_C10 SINTABLE_PHYSICAL).2 (4 * SINTABLE_PHYSICAL_SIZE) (by decide) (by decide)⟩

/-- C8 counterexample: `sintable` is not periodic as a function of the
raw index: one period past index 0 the final branch wraps the physical
index around and the access is out of bounds (`none`), not the stored
sample 0.  The claim `sample_at(i) == sample_at(i + 4P)` therefore fails
at i = 0. -/
theorem claim_C8_cex :
    ¬ (sintable SINTABLE_PHYSICAL_SIZE SINTABLE_PHYSICAL (0 + 4 * SINTABLE_PHYSICAL_SIZE) =
        sintable SINTABLE_PHYSICAL_SIZE SINTABLE_PHYSICAL 0) := by decide

/-- C8 (amended): on indices reduced modulo the logical period — which
the oscillator guarantees — `sintable` is periodic with period 4P, and
within the first half period it is antisymmetric:
`sample_at(i + 2P) = -sample_at(i)` for i < 2P.  An unreduced index at or
above 4P is an out-of-bounds access (see C10), not a periodic wrap. -/
theorem claim_C8 (table : Nat → Int) (i : Nat) :
    sintable SINTABLE_PHYSICAL_SIZE table
        ((i + 4 * SINTABLE_PHYSICAL_SIZE) % (4 * SINTABLE_PHYSICAL_SIZE)) =
      sintable SINTABLE_PHYSICAL_SIZE table (i % (4 * SINTABLE_PHYSICAL_SIZE)) ∧
    (i < 2 * SINTABLE_PHYSICAL_SIZE →
      sintable SINTABLE_PHYSICAL_SIZE table (i + 2 * SINTABLE_PHYSICAL_SIZE) =
        Option.map (fun v => -v) (sintable SINTABLE_PHYSICAL_SIZE table i)) := by
  constructor
  · rw [Nat.add_mod_right]
  · intro hi
    simp only [SINTABLE_PHYSICAL_SIZE] at hi
    have h := sintable_cases 65536 table (i + 2 * 65536) (by decide)
    have h' := sintable_cases 65536 table i (by decide)
    rcases Nat.lt_or_ge i 65536 with h1 | h1
    · have e : i + 2 * 65536 - 2 * 65536 = i := by omega
      rw [show SINTABLE_PHYSICAL_SIZE = 65536 from rfl,
        h.2.2.1 (by omega) (by omega), h'.1 h1, e]
      rfl
    · have e : i + 2 * 65536 - 3 * 65536 = i - 65536 := by omega
      rw [show SINTABLE_PHYSICAL_SIZE = 65536 from rfl,
        h.2.2.2 (by omega) (by omega), h'.2.1 h1 hi, e]
      rfl

/-- Witness for C8: the antisymmetry instance at i = 3. -/
theorem claim_C8_witness :
    sintable SINTABLE_PHYSICAL_SIZE SINTABLE_PHYSICAL (3 + 2 * SINTABLE_PHYSICAL_SIZE) =
      Option.map (fun v => -v) (sintable SINTABLE_PHYSICAL_SIZE SINTABLE_PHYSICAL 3) :=
  (claim_C8 SINTABLE_PHYSICAL 3).2 (by decide)

theorem U64_pos : 0 < U64 := by norm_num [U64]

/-- Reindexing a mapped range by the successor function, for abstract
functions (kept abstract so that instantiation needs only beta
reduction). -/
theorem map_shift {α : Type} (g1 g2 : Nat → α) (h : ∀ j, g1 j = g2 (j + 1)) :
    ∀ l : List Nat, l.map g1 = (l.map Nat.succ).map g2 := by
  intro l
  induction l with
  | nil => rfl
  | cons a t ih =>
    simp only [List.map_cons, ih, h a, Nat.succ_eq_add_one]

/-- Reindexing a mapped range by a constant offset, for abstract
functions. -/
theorem map_add_shift {α : Type} (g1 g2 : Nat → α) (n1 : Nat) (h : ∀ j, g1 (n1 + j) = g2 j) :
    ∀ l : List Nat, (l.map (fun x => n1 + x)).map g1 = l.map g2 := by
  intro l
  induction l with
  | nil => rfl
  | cons a t ih =>
    simp only [List.map_cons, ih, h a]

/-- Absorbing one accumulator step into the oscillator sample index. -/
theorem osc_shift (table : Nat → Int) (phase fcw j : Nat) :
    oscSample table (((phase + fcw) % U64 + (j + 1) * fcw) % U64)
      = oscSample table ((phase + (j + 1 + 1) * fcw) % U64) := by
  rw [Nat.mod_add_mod]
  exact congrArg (oscSample table) (congrArg (fun t => t % U64) (by ring))

/-- Closed form of the oscillator loop: sample `j` reads the table at the
phase `(phase + (j+1) * fcw) mod 2^64`, and the final accumulator value
is `(phase + n * fcw) mod 2^64`. -/
theorem genLoop_closed (table : Nat → Int) (fcw n : Nat) :
    ∀ phase, phase < U64 →
      genLoop table fcw n phase =
        ((List.range n).map fun j => oscSample table ((phase + (j + 1) * fcw) % U64),
          (phase + n * fcw) % U64) := by
  induction n with
  | zero =>
    intro phase h
    simp [genLoop, Nat.mod_eq_of_lt h]
  | succ n ih =>
    intro phase h
    have h2 : (phase + fcw) % U64 < U64 := Nat.mod_lt _ U64_pos
    have hfst : (genLoop table fcw (n + 1) phase).1 =
        (List.range (n + 1)).map fun j => oscSample table ((phase + (j + 1) * fcw) % U64) := by
      show oscSample table ((phase + fcw) % U64)
          :: (genLoop table fcw n ((phase + fcw) % U64)).1 = _
      rw [ih ((phase + fcw) % U64) h2, List.range_succ_eq_map, List.map_cons]
      refine congrArg₂ List.cons ?_ ?_
      · exact congrArg (oscSample table)
          (congrArg (fun t => t % U64) (by ring : phase + fcw = phase + (0 + 1) * fcw))
      · exact map_shift _ _ (fun j => osc_shift table phase fcw j) (List.range n)
    have hsnd : (genLoop table fcw (n + 1) phase).2 = (phase + (n + 1) * fcw) % U64 := by
      show (genLoop table fcw n ((phase + fcw) % U64)).2 = _
      rw [ih ((phase + fcw) % U64) h2, Nat.mod_add_mod]
      exact congrArg (fun t => t % U64) (by ring)
    exact Prod.ext hfst hsnd

/-- C2: `generate(f, n)` computes the frequency control word
`fcw = f * logical_period_length / sample_rate * 2^46` (the definition
`fcwOf`), then for each of the n samples advances the 64-bit accumulator
by `fcw`, emits the waveform-table sample at index
`(phase + 2^45) >> 46`, and finally records `fcw` as the last control
word.  The hypothesis is the `uint64_t` range of the incoming phase. -/
theorem claim_C2 (table : Nat → Int) (rate : Nat) (freq : ℚ) (n : Nat) (st : OscState)
    (h : st.phase < U64) :
    generate table rate freq n st =
      ((List.range n).map fun j => oscSample table ((st.phase + (j + 1) * fcwOf freq rate) % U64),
        ⟨(st.phase + n * fcwOf freq rate) % U64, fcwOf freq rate⟩) := by
  simp only [generate, genLoop_closed table (fcwOf freq rate) n st.phase h]

/-- Witness for C2 at a concrete frequency, rate, count and state. -/
theorem claim_C2_witness :
    generate spikeTable 44100 440 2 ⟨0, 0⟩ =
      ((List.range 2).map fun j => oscSample spikeTable ((0 + (j + 1) * fcwOf 440 44100) % U64),
        ⟨(0 + 2 * fcwOf 440 44100) % U64, fcwOf 440 44100⟩) :=
  claim_C2 spikeTable 44100 440 2 ⟨0, 0⟩ (by decide)

/-- C9: generating n1 samples and then n2 samples at the same frequency,
with no transition in between, produces exactly the samples of a single
(n1 + n2)-sample call and the same final oscillator state: phase is
continuous across calls. -/
theorem claim_C9 (table : Nat → Int) (rate : Nat) (freq : ℚ) (n1 n2 : Nat) (st : OscState)
    (h : st.phase < U64) :
    generate table rate freq (n1 + n2) st =
      ((generate table rate freq n1 st).1 ++
          (generate table rate freq n2 (generate table rate freq n1 st).2).1,
        (generate table rate freq n2 (generate table rate freq n1 st).2).2) := by
  have h1 : (st.phase + n1 * fcwOf freq rate) % U64 < U64 := Nat.mod_lt _ U64_pos
  have hj : ∀ j : Nat,
      oscSample table ((st.phase + (n1 + j + 1) * fcwOf freq rate) % U64)
        = oscSample table
            (((st.phase + n1 * fcwOf freq rate) % U64 + (j + 1) * fcwOf freq rate) % U64) := by
    intro j
    rw [Nat.mod_add_mod]
    exact congrArg (oscSample table) (congrArg (fun t => t % U64) (by ring))
  simp only [generate, genLoop_closed table (fcwOf freq rate) (n1 + n2) st.phase h,
    genLoop_closed table (fcwOf freq rate) n1 st.phase h,
    genLoop_closed table (fcwOf freq rate) n2 ((st.phase + n1 * fcwOf freq rate) % U64) h1,
    Prod.mk.injEq]
  refine ⟨?_, ?_⟩
  · rw [List.range_add, List.map_append]
    refine congrArg₂ (· ++ ·) rfl ?_
    exact map_add_shift _ _ n1 hj (List.range n2)
  · rw [Nat.mod_add_mod]
    refine congrArg₂ OscState.mk ?_ rfl
    exact congrArg (fun t => t % U64) (by ring)

/-- Witness for C9 at a concrete split. -/
theorem claim_C9_witness :
    generate spikeTable 44100 440 (1 + 1) ⟨0, 0⟩ =
      ((generate spikeTable 44100 440 1 ⟨0, 0⟩).1 ++
          (generate spikeTable 44100 440 1 (generate spikeTable 44100 440 1 ⟨0, 0⟩).2).1,
        (generate spikeTable 44100 440 1 (generate spikeTable 44100 440 1 ⟨0, 0⟩).2).2) :=
  claim_C9 spikeTable 44100 440 1 1 ⟨0, 0⟩ (by decide)

/-- Shifting the silence tail by one sample. -/
theorem silTail_shift (table : Nat → Int) (last phase j : Nat) :
    silTail table last ((phase + last) % U64) j = silTail table last phase (j + 1) := by
  simp only [silTail]
  rw [Nat.mod_add_mod]
  exact congrArg (oscSample table) (congrArg (fun t => t % U64) (by ring))

/-- The silence generator when the decaying tail never falls below the
threshold: every requested sample is a waveform sample, the phase keeps
advancing by the last control word, and nothing is reset. -/
theorem genSilence_all (table : Nat → Int) (n : Nat) :
    ∀ phase last, phase < U64 →
      (∀ j, j < n → 1000 ≤ (silTail table last phase j).natAbs) →
      genSilence table n phase last =
        ((List.range n).map (silTail table last phase), (phase + n * last) % U64, last) := by
  induction n with
  | zero =>
    intro phase last h _
    simp [genSilence, Nat.mod_eq_of_lt h]
  | succ n ih =>
    intro phase last h hall
    have h2 : (phase + last) % U64 < U64 := Nat.mod_lt _ U64_pos
    have hs : oscSample table ((phase + last) % U64) = silTail table last phase 0 := by
      simp [silTail]
    have h0 := hall 0 (Nat.succ_pos n)
    simp only [genSilence, hs, if_neg (by omega : ¬ (silTail table last phase 0).natAbs < 1000)]
    rw [ih ((phase + last) % U64) last h2
      (fun j hj => by rw [silTail_shift]; exact hall (j + 1) (by omega))]
    refine congrArg₂ Prod.mk ?_ (congrArg₂ Prod.mk ?_ rfl)
    · rw [List.range_succ_eq_map, List.map_cons]
      refine congrArg₂ List.cons rfl ?_
      exact map_shift _ _ (fun j => silTail_shift table last phase j) (List.range n)
    · rw [Nat.mod_add_mod]
      exact congrArg (fun t => t % U64) (by ring)

/-- The silence generator when the decaying tail first falls below the
threshold at sample k: the waveform samples up to and including sample k
are emitted, every remaining sample is literal zero, and both the phase
accumulator and the last control word are reset to zero. -/
theorem genSilence_cross (table : Nat → Int) (k : Nat) :
    ∀ n phase last, k < n →
      (silTail table last phase k).natAbs < 1000 →
      (∀ j, j < k → 1000 ≤ (silTail table last phase j).natAbs) →
      genSilence table n phase last =
        ((List.range (k + 1)).map (silTail table last phase) ++ List.replicate (n - (k + 1)) 0,
          0, 0) := by
  induction k with
  | zero =>
    intro n phase last hk hcross _
    obtain ⟨m, rfl⟩ : ∃ m, n = m + 1 := ⟨n - 1, by omega⟩
    have hs : oscSample table ((phase + last) % U64) = silTail table last phase 0 := by
      simp [silTail]
    simp only [genSilence, hs, if_pos hcross]
    rfl
  | succ k ih =>
    intro n phase last hk hcross hall
    obtain ⟨m, rfl⟩ : ∃ m, n = m + 1 := ⟨n - 1, by omega⟩
    have hs : oscSample table ((phase + last) % U64) = silTail table last phase 0 := by
      simp [silTail]
    have h0 := hall 0 (Nat.succ_pos k)
    simp only [genSilence, hs, if_neg (by omega : ¬ (silTail table last phase 0).natAbs < 1000)]
    rw [ih m ((phase + last) % U64) last (by omega)
      (by rw [silTail_shift]; exact hcross)
      (fun j hj => by rw [silTail_shift]; exact hall (j + 1) (by omega))]
    refine congrArg₂ Prod.mk ?_ rfl
    conv_rhs => rw [List.range_succ_eq_map, List.map_cons, List.cons_append]
    refine congrArg₂ List.cons rfl ?_
    refine congrArg₂ (· ++ ·) ?_ ?_
    · exact map_shift _ _ (fun j => silTail_shift table last phase j) (List.range (k + 1))
    · exact congrArg (fun t => List.replicate t (0 : Int)) (by omega)

/-- C1: on a tone-to-silence transition, the silence generator keeps
advancing the shared phase accumulator by the last control word and
emits waveform-table samples until the magnitude of an emitted sample falls
below 1000; from that point it emits literal zero for every remaining
requested sample and resets the phase accumulator and the last control
word to zero (second conjunct).  If the threshold is never crossed
within the requested count, every emitted sample is part of the decaying
tail and no forced zeros are emitted (first conjunct). -/
theorem claim_C1 (table : Nat → Int) (n phase last : Nat) (h : phase < U64) :
    ((∀ j, j < n → 1000 ≤ (silTail table last phase j).natAbs) →
      genSilence table n phase last =
        ((List.range n).map (silTail table last phase), (phase + n * last) % U64, last)) ∧
    (∀ k, k < n → (silTail table last phase k).natAbs < 1000 →
      (∀ j, j < k → 1000 ≤ (silTail table last phase j).natAbs) →
      genSilence table n phase last =
        ((List.range (k + 1)).map (silTail table last phase) ++ List.replicate (n - (k + 1)) 0,
          0, 0)) :=
  ⟨genSilence_all table n phase last h,
    fun k hk hcross hall => genSilence_cross table k n phase last hk hcross hall⟩

/-- Witness for C1: with a table holding one spike above the threshold
at physical index 1 and a control word of one table step per sample, the
first emitted silence sample is the spike, the second is the
sub-threshold crossing sample, and the remaining two are forced zeros
with the state reset. -/
theorem claim_C1_witness :
    genSilence spikeTable 4 0 (2 ^ 46) =
      ((List.range (1 + 1)).map (silTail spikeTable (2 ^ 46) 0) ++ List.replicate (4 - (1 + 1)) 0,
        0, 0) :=
  (claim_C1 spikeTable 4 0 (2 ^ 46) (by decide)).2 1 (by decide) (by decide)
    (fun j hj => by
      have hj0 : j = 0 := by omega
      subst hj0
      decide)

/-- Invariants of one `send_buffer_to_card` write loop, for every
outcome: the capacity, the pushed stream and the flush counter are
untouched, and the buffer can only shrink. -/
theorem sendLoop_state (orc : List WriteResult) :
    ∀ size buf evs psh fl,
      ((sendLoop size buf orc evs psh fl).state).bufferSize = size ∧
      ((sendLoop size buf orc evs psh fl).state).pushed = psh ∧
      ((sendLoop size buf orc evs psh fl).state).flushes = fl ∧
      ((sendLoop size buf orc evs psh fl).state).buffer.length ≤ buf.length := by
  induction orc with
  | nil =>
    intro size buf evs psh fl
    cases buf <;> simp [sendLoop, Res.state]
  | cons o rest ih =>
    intro size buf evs psh fl
    cases buf with
    | nil => simp [sendLoop, Res.state]
    | cons b bs =>
      cases o with
      | accepted k =>
        simp only [sendLoop]
        have h := ih size ((b :: bs).drop (min k (b :: bs).length))
          (evs ++ [.wrote ((b :: bs).take (min k (b :: bs).length))]) psh fl
        refine ⟨h.1, h.2.1, h.2.2.1, le_trans h.2.2.2 ?_⟩
        simp [List.length_drop]
      | underrun => simp [sendLoop, Res.state]
      | fatalError => simp [sendLoop, Res.state]

/-- Invariants of the wait-for-space loop, for every outcome: capacity
and pushed stream untouched, buffer can only shrink, flush counter can
only grow. -/
theorem waitForSpace_state (fuel : Nat) :
    ∀ s : PState,
      ((waitForSpace fuel s).state).bufferSize = s.bufferSize ∧
      ((waitForSpace fuel s).state).pushed = s.pushed ∧
      ((waitForSpace fuel s).state).buffer.length ≤ s.buffer.length ∧
      s.flushes ≤ ((waitForSpace fuel s).state).flushes := by
  induction fuel with
  | zero =>
    intro s
    by_cases h : s.buffer.length = s.bufferSize <;>
      simp [waitForSpace, h, Res.state]
  | succ f ih =>
    intro s
    by_cases h : s.buffer.length = s.bufferSize
    · have hs := sendLoop_state s.oracle s.bufferSize s.buffer s.events s.pushed (s.flushes + 1)
      simp only [waitForSpace, if_pos h]
      cases hc : send_buffer_to_card s with
      | ok s1 =>
        rw [show send_buffer_to_card s
            = sendLoop s.bufferSize s.buffer s.oracle s.events s.pushed (s.flushes + 1)
          from rfl] at hc
        rw [hc] at hs
        simp only [Res.state] at hs
        have h1 := ih s1
        exact ⟨h1.1.trans hs.1, h1.2.1.trans hs.2.1, h1.2.2.1.trans hs.2.2.2,
          le_trans (by omega) h1.2.2.2⟩
      | fatal s1 =>
        rw [show send_buffer_to_card s
            = sendLoop s.bufferSize s.buffer s.oracle s.events s.pushed (s.flushes + 1)
          from rfl] at hc
        rw [hc] at hs
        simp only [Res.state] at hs ⊢
        exact ⟨hs.1, hs.2.1, hs.2.2.2, by omega⟩
      | stuck s1 =>
        rw [show send_buffer_to_card s
            = sendLoop s.bufferSize s.buffer s.oracle s.events s.pushed (s.flushes + 1)
          from rfl] at hc
        rw [hc] at hs
        simp only [Res.state] at hs ⊢
        exact ⟨hs.1, hs.2.1, hs.2.2.2, by omega⟩
    · simp [waitForSpace, h, Res.state]

/-- The wait-for-space loop returns normally only with a non-full
buffer. -/
theorem waitForSpace_ok (fuel : Nat) :
    ∀ s s1 : PState, waitForSpace fuel s = .ok s1 →
      s1.buffer.length ≠ s1.bufferSize := by
  induction fuel with
  | zero =>
    intro s s1 h
    by_cases hc : s.buffer.length = s.bufferSize
    · simp [waitForSpace, hc] at h
    · simp only [waitForSpace, if_neg hc] at h
      cases h
      exact hc
  | succ f ih =>
    intro s s1 h
    by_cases hc : s.buffer.length = s.bufferSize
    · simp only [waitForSpace, if_pos hc] at h
      split at h
      · rename_i s2 hr
        exact ih s2 s1 h
      · rename_i r hne
        exact absurd h (hne s1)
    · simp only [waitForSpace, if_neg hc] at h
      cases h
      exact hc

/-- Waiting for space on a buffer that is not full is a no-op. -/
theorem waitForSpace_not_full (fuel : Nat) (s : PState)
    (h : ¬ s.buffer.length = s.bufferSize) : waitForSpace fuel s = .ok s := by
  cases fuel <;> simp [waitForSpace, h]

/-- Waiting for space on a full buffer flushes at least once before
returning normally. -/
theorem waitForSpace_grow (fuel : Nat) :
    ∀ s s1 : PState, s.buffer.length = s.bufferSize →
      waitForSpace fuel s = .ok s1 → s.flushes < s1.flushes := by
  cases fuel with
  | zero =>
    intro s s1 hfull h
    simp [waitForSpace, hfull] at h
  | succ f =>
    intro s s1 hfull h
    simp only [waitForSpace, if_pos hfull] at h
    split at h
    · rename_i s2 hr
      have hs := sendLoop_state s.oracle s.bufferSize s.buffer s.events s.pushed (s.flushes + 1)
      rw [show sendLoop s.bufferSize s.buffer s.oracle s.events s.pushed (s.flushes + 1)
          = send_buffer_to_card s from rfl, hr] at hs
      simp only [Res.state] at hs
      have h1 := waitForSpace_state f s2
      rw [h] at h1
      simp only [Res.state] at h1
      omega
    · rename_i r hne
      exact absurd h (hne s1)

/-- C4: the write loop of flush, one sink response at a time, on a
non-empty buffer.  An underrun response emits the diagnostic, re-prepares
the sink and returns with the buffer contents and fill count unchanged;
an acceptance of only k frames shifts out exactly the first k samples,
retains the rest in order and continues; any other failure terminates
the process after the fatal diagnostic. -/
theorem claim_C4 (size : Nat) (b : Int) (bs : List Int) (orc : List WriteResult)
    (evs : List Event) (psh : List Int) (fl k : Nat) :
    (sendLoop size (b :: bs) (.underrun :: orc) evs psh fl =
      .ok ⟨size, b :: bs, orc, evs ++ [.diagUnderrun, .prepare], psh, fl⟩) ∧
    (k ≤ (b :: bs).length →
      sendLoop size (b :: bs) (.accepted k :: orc) evs psh fl =
        sendLoop size ((b :: bs).drop k) orc (evs ++ [.wrote ((b :: bs).take k)]) psh fl) ∧
    (sendLoop size (b :: bs) (.fatalError :: orc) evs psh fl =
      .fatal ⟨size, b :: bs, orc, evs ++ [.diagFatal], psh, fl⟩) := by
  refine ⟨rfl, ?_, rfl⟩
  intro hk
  simp only [sendLoop]
  rw [min_eq_left hk]

/-- Witness for C4: an acceptance of 2 frames out of 3. -/
theorem claim_C4_witness :
    sendLoop 4 (1 :: [2, 3]) (.accepted 2 :: []) [] [] 0 =
      sendLoop 4 ((1 :: [2, 3]).drop 2) [] ([] ++ [.wrote ((1 :: [2, 3]).take 2)]) [] 0 :=
  (claim_C4 4 1 [2, 3] [] [] [] 0 2).2.1 (by decide)

/-- Invariants of `play_buffered`, for every outcome: capacity untouched,
flush counter monotone, and the fill level bounded by the larger of the
initial fill level and the capacity (hence by the capacity whenever the
buffer starts within bounds). -/
theorem play_buffered_state (fuel : Nat) :
    ∀ (data : List Int) (s : PState),
      ((play_buffered fuel data s).state).bufferSize = s.bufferSize ∧
      s.flushes ≤ ((play_buffered fuel data s).state).flushes ∧
      ((play_buffered fuel data s).state).buffer.length
        ≤ max s.buffer.length s.bufferSize := by
  induction fuel with
  | zero =>
    intro data s
    cases data <;> simp [play_buffered, Res.state, le_max_left]
  | succ f ih =>
    intro data s
    cases data with
    | nil => simp [play_buffered, Res.state, le_max_left]
    | cons d ds =>
      simp only [play_buffered]
      cases hw : waitForSpace f s with
      | ok s1 =>
        have hws := waitForSpace_state f s
        rw [hw] at hws
        simp only [Res.state] at hws
        have h2 := ih ((d :: ds).drop (min (d :: ds).length (s1.bufferSize - s1.buffer.length)))
          ⟨s1.bufferSize,
            s1.buffer ++ (d :: ds).take (min (d :: ds).length (s1.bufferSize - s1.buffer.length)),
            s1.oracle, s1.events,
            s1.pushed ++ (d :: ds).take (min (d :: ds).length (s1.bufferSize - s1.buffer.length)),
            s1.flushes⟩
        dsimp only at h2
        rw [List.length_append, List.length_take] at h2
        refine ⟨h2.1.trans hws.1, le_trans hws.2.2.2 h2.2.1, le_trans h2.2.2 ?_⟩
        have e1 := hws.1
        have e2 := hws.2.2.1
        omega
      | fatal s1 =>
        have hws := waitForSpace_state f s
        rw [hw] at hws
        simp only [Res.state] at hws ⊢
        exact ⟨hws.1, hws.2.2.2, le_trans hws.2.2.1 (le_max_left _ _)⟩
      | stuck s1 =>
        have hws := waitForSpace_state f s
        rw [hw] at hws
        simp only [Res.state] at hws ⊢
        exact ⟨hws.1, hws.2.2.2, le_trans hws.2.2.1 (le_max_left _ _)⟩

/-- A normal return of `play_buffered` pushes exactly the given samples,
in order, after whatever was already pushed. -/
theorem play_buffered_ok (fuel : Nat) :
    ∀ (data : List Int) (s s' : PState), play_buffered fuel data s = .ok s' →
      s'.pushed = s.pushed ++ data := by
  induction fuel with
  | zero =>
    intro data s s' h
    cases data with
    | nil =>
      simp only [play_buffered] at h
      cases h
      simp
    | cons d ds => simp [play_buffered] at h
  | succ f ih =>
    intro data s s' h
    cases data with
    | nil =>
      simp only [play_buffered] at h
      cases h
      simp
    | cons d ds =>
      simp only [play_buffered] at h
      split at h
      · rename_i s1 hw
        have hws := waitForSpace_state f s
        rw [hw] at hws
        simp only [Res.state] at hws
        have h2 := ih _ _ _ h
        dsimp only at h2
        rw [h2, hws.2.1, List.append_assoc, List.take_append_drop]
      · rename_i r hne
        exact absurd h (hne s')

/-- A normal return of `play_silence` pushes exactly the requested count
of zero samples. -/
theorem play_silence_ok (fuel : Nat) :
    ∀ (len : Nat) (s s' : PState), play_silence fuel len s = .ok s' →
      s'.pushed = s.pushed ++ List.replicate len 0 := by
  induction fuel with
  | zero =>
    intro len s s' h
    cases len with
    | zero =>
      simp only [play_silence] at h
      cases h
      simp
    | succ l => simp [play_silence] at h
  | succ f ih =>
    intro len s s' h
    cases len with
    | zero =>
      simp only [play_silence] at h
      cases h
      simp
    | succ l =>
      simp only [play_silence] at h
      split at h
      · rename_i s1 hw
        have hws := waitForSpace_state f s
        rw [hw] at hws
        simp only [Res.state] at hws
        have h2 := ih _ _ _ h
        dsimp only at h2
        rw [h2, hws.2.1, List.append_assoc, ← List.replicate_add]
        have : min (l + 1) (s1.bufferSize - s1.buffer.length)
            + (l + 1 - min (l + 1) (s1.bufferSize - s1.buffer.length)) = l + 1 := by
          omega
        rw [this]
      · rename_i r hne
        exact absurd h (hne s')

/-- A normal return of the per-repetition tone loop pushes exactly the
`toneTrace` stream: whole blocks while more than a block remains, then a
front portion of the block. -/
theorem play_tone_loop_ok (fuel : Nat) :
    ∀ (blk : List Int) (dur : Nat) (s s' : PState),
      play_tone_loop fuel blk dur s = .ok s' →
      s'.pushed = s.pushed ++ toneTrace fuel blk dur := by
  induction fuel with
  | zero =>
    intro blk dur s s' h
    by_cases hc : blk.length < dur
    · simp [play_tone_loop, hc] at h
    · simp only [play_tone_loop, if_neg hc] at h
      rw [play_buffered_ok 0 _ _ _ h]
      simp [toneTrace, hc]
  | succ f ih =>
    intro blk dur s s' h
    by_cases hc : blk.length < dur
    · simp only [play_tone_loop, if_pos hc] at h
      split at h
      · rename_i s1 hpb
        have h1 := play_buffered_ok f blk s s1 hpb
        have h2 := ih blk (dur - blk.length) s1 s' h
        rw [h2, h1]
        simp only [toneTrace, if_pos hc]
        rw [List.append_assoc]
      · rename_i r hne
        exact absurd h (hne s')
    · simp only [play_tone_loop, if_neg hc] at h
      rw [play_buffered_ok (f + 1) _ _ _ h]
      simp [toneTrace, hc]

/-- With a non-empty block and enough fuel, the tone trace has exactly
the requested number of frames. -/
theorem toneTrace_length (fuel : Nat) :
    ∀ (blk : List Int) (dur : Nat), blk ≠ [] → dur ≤ fuel →
      (toneTrace fuel blk dur).length = dur := by
  induction fuel with
  | zero =>
    intro blk dur hb hf
    have hd : dur = 0 := by omega
    subst hd
    simp [toneTrace]
  | succ f ih =>
    intro blk dur hb hf
    have hpos : 0 < blk.length := List.length_pos.mpr hb
    by_cases hc : blk.length < dur
    · simp only [toneTrace, if_pos hc]
      rw [List.length_append, ih blk (dur - blk.length) hb (by omega)]
      omega
    · simp only [toneTrace, if_neg hc]
      rw [List.length_take]
      omega

/-- A normal return of the repetition loop pushes exactly the
`repsTrace` stream: per repetition a tone segment, followed by a silence
segment exactly when this is not the last repetition or the end-delay
flag is set. -/
theorem play_reps_ok (fuel rate : Nat) (p : beep_parms_t) :
    ∀ (r : Nat) (s s' : PState), play_reps fuel rate p r s = .ok s' →
      s'.pushed = s.pushed ++ repsTrace fuel rate p r := by
  intro r
  induction r with
  | zero =>
    intro s s' h
    simp only [play_reps] at h
    cases h
    simp [repsTrace]
  | succ r ih =>
    intro s s' h
    simp only [play_reps] at h
    split at h
    · rename_i s1 ht
      have h1 := play_tone_loop_ok fuel _ _ _ _ ht
      by_cases hcond : 0 < r ∨ p.end_delay = true
      · rw [if_pos hcond] at h
        split at h
        · rename_i s2 hsil
          have h2 := play_silence_ok fuel _ _ _ hsil
          have h3 := ih _ _ h
          rw [h3, h2, h1]
          simp only [repsTrace, if_pos hcond, silenceTrace]
          simp [List.append_assoc]
        · rename_i r2 hne
          exact absurd h (hne s')
      · rw [if_neg hcond] at h
        have h3 := ih _ _ h
        rw [h3, h1]
        simp only [repsTrace, if_neg hcond]
        simp [List.append_assoc]
    · rename_i r1 hne
      exact absurd h (hne s')

/-- A normal return of `play_blocks` pushes exactly the `blocksTrace`
stream, node by node in list order. -/
theorem play_blocks_ok (fuel rate : Nat) :
    ∀ (ps : List beep_parms_t) (s s' : PState),
      play_blocks fuel rate ps s = .ok s' →
      s'.pushed = s.pushed ++ blocksTrace fuel rate ps := by
  intro ps
  induction ps with
  | nil =>
    intro s s' h
    simp only [play_blocks] at h
    cases h
    simp [blocksTrace]
  | cons p pt ih =>
    intro s s' h
    simp only [play_blocks] at h
    split at h
    · rename_i s1 hr
      have h1 := play_reps_ok fuel rate p p.reps s s1 hr
      have h2 := ih s1 s' h
      rw [h2, h1]
      simp only [blocksTrace]
      rw [List.append_assoc]
    · rename_i r hne
      exact absurd h (hne s')

/-- Invariants of `cleanup`, for every outcome: capacity untouched and
the buffer can only shrink. -/
theorem cleanup_state (fuel : Nat) :
    ∀ s : PState,
      ((cleanup fuel s).state).bufferSize = s.bufferSize ∧
      ((cleanup fuel s).state).buffer.length ≤ s.buffer.length := by
  induction fuel with
  | zero =>
    intro s
    simp only [cleanup]
    split
    · simp [Res.state]
    · simp [Res.state]
  | succ f ih =>
    intro s
    simp only [cleanup]
    split
    · simp [Res.state]
    · cases hc : send_buffer_to_card s with
      | ok s1 =>
        have hs := sendLoop_state s.oracle s.bufferSize s.buffer s.events s.pushed (s.flushes + 1)
        rw [show sendLoop s.bufferSize s.buffer s.oracle s.events s.pushed (s.flushes + 1)
            = send_buffer_to_card s from rfl, hc] at hs
        simp only [Res.state] at hs
        have h1 := ih s1
        exact ⟨h1.1.trans hs.1, le_trans h1.2 hs.2.2.2⟩
      | fatal s1 =>
        have hs := sendLoop_state s.oracle s.bufferSize s.buffer s.events s.pushed (s.flushes + 1)
        rw [show sendLoop s.bufferSize s.buffer s.oracle s.events s.pushed (s.flushes + 1)
            = send_buffer_to_card s from rfl, hc] at hs
        simp only [Res.state] at hs ⊢
        exact ⟨hs.1, hs.2.2.2⟩
      | stuck s1 =>
        have hs := sendLoop_state s.oracle s.bufferSize s.buffer s.events s.pushed (s.flushes + 1)
        rw [show sendLoop s.bufferSize s.buffer s.oracle s.events s.pushed (s.flushes + 1)
            = send_buffer_to_card s from rfl, hc] at hs
        simp only [Res.state] at hs ⊢
        exact ⟨hs.1, hs.2.2.2⟩

/-- One buffer operation preserves the capacity and the fill invariant. -/
theorem runOp_state (fuel : Nat) (op : BufOp) (s : PState)
    (h : s.buffer.length ≤ s.bufferSize) :
    ((runOp fuel op s).state).bufferSize = s.bufferSize ∧
    ((runOp fuel op s).state).buffer.length ≤ ((runOp fuel op s).state).bufferSize := by
  cases op with
  | append x =>
    have hp := play_buffered_state fuel [x] s
    simp only [runOp]
    refine ⟨hp.1, ?_⟩
    rw [hp.1]
    exact le_trans hp.2.2 (by omega)
  | flush =>
    have hs := sendLoop_state s.oracle s.bufferSize s.buffer s.events s.pushed (s.flushes + 1)
    simp only [runOp]
    rw [show send_buffer_to_card s
        = sendLoop s.bufferSize s.buffer s.oracle s.events s.pushed (s.flushes + 1) from rfl]
    refine ⟨hs.1, ?_⟩
    rw [hs.1]
    exact le_trans hs.2.2.2 h
  | drain =>
    have hc := cleanup_state fuel s
    simp only [runOp]
    refine ⟨hc.1, ?_⟩
    rw [hc.1]
    exact le_trans hc.2 h

/-- Any interleaving of buffer operations preserves the capacity and the
fill invariant. -/
theorem runOps_state (fuel : Nat) :
    ∀ (ops : List BufOp) (s : PState), s.buffer.length ≤ s.bufferSize →
      ((runOps fuel ops s).state).bufferSize = s.bufferSize ∧
      ((runOps fuel ops s).state).buffer.length ≤ ((runOps fuel ops s).state).bufferSize := by
  intro ops
  induction ops with
  | nil =>
    intro s h
    simp only [runOps, Res.state]
    exact ⟨trivial, h⟩
  | cons op ops ih =>
    intro s h
    simp only [runOps]
    cases hr : runOp fuel op s with
    | ok s1 =>
      have h1 := runOp_state fuel op s h
      rw [hr] at h1
      simp only [Res.state] at h1
      have h2 := ih s1 h1.2
      exact ⟨h2.1.trans h1.1, h2.2⟩
    | fatal s1 =>
      have h1 := runOp_state fuel op s h
      rw [hr] at h1
      simp only [Res.state] at h1 ⊢
      exact h1
    | stuck s1 =>
      have h1 := runOp_state fuel op s h
      rw [hr] at h1
      simp only [Res.state] at h1 ⊢
      exact h1

/-- C5: across every interleaving of append, flush and drain operations
started from a state within capacity, the invariant
`0 ≤ fill_count ≤ capacity` holds, and the capacity fixed at
configuration time is never changed.  The operation list is arbitrary,
so the final state of every leading portion of the list — that is, every
intermediate step —
satisfies the invariant as well. -/
theorem claim_C5 (fuel : Nat) (ops : List BufOp) (s : PState)
    (h : s.buffer.length ≤ s.bufferSize) :
    0 ≤ ((runOps fuel ops s).state).buffer.length ∧
    ((runOps fuel ops s).state).buffer.length ≤ ((runOps fuel ops s).state).bufferSize ∧
    ((runOps fuel ops s).state).bufferSize = s.bufferSize :=
  ⟨Nat.zero_le _, (runOps_state fuel ops s h).2, (runOps_state fuel ops s h).1⟩

/-- Witness for C5: two appends filling a two-sample buffer, a flush and
a drain. -/
theorem claim_C5_witness :
    0 ≤ ((runOps 5 [.append 1, .append 2, .flush, .drain]
        ⟨2, [], [.accepted 2, .accepted 2], [], [], 0⟩).state).buffer.length ∧
    ((runOps 5 [.append 1, .append 2, .flush, .drain]
        ⟨2, [], [.accepted 2, .accepted 2], [], [], 0⟩).state).buffer.length
      ≤ ((runOps 5 [.append 1, .append 2, .flush, .drain]
        ⟨2, [], [.accepted 2, .accepted 2], [], [], 0⟩).state).bufferSize ∧
    ((runOps 5 [.append 1, .append 2, .flush, .drain]
        ⟨2, [], [.accepted 2, .accepted 2], [], [], 0⟩).state).bufferSize = 2 :=
  claim_C5 5 [.append 1, .append 2, .flush, .drain]
    ⟨2, [], [.accepted 2, .accepted 2], [], [], 0⟩ (by decide)

/-- C3 counterexample: the frame count of a tone segment is computed in
32-bit unsigned arithmetic, so it is not `round(duration_ms *
sample_rate / 1000)` for every node.  For a node of 4294967 ms at a
sink-negotiated rate of 1000 Hz the product overflows:
`(4294967 * 1000 + 500) mod 2^32 = 204`, so the sequencer emits 0
frames, while the claimed rounding formula gives 4294967. -/
theorem claim_C3_cex :
    ((play_blocks 5 1000 [⟨4294967, 1, 0, false, [7]⟩]
        ⟨64, [], [], [], [], 0⟩).state).pushed.length = 0 ∧
    (4294967 * 1000 + 500) / 1000 = 4294967 ∧ (0 : Nat) ≠ 4294967 := by
  refine ⟨by decide, by norm_num, by decide⟩

/-- C3 (amended): the sequencer processes the nodes in list order, and
for each node emits, once per repetition, a tone segment of
`((duration_ms * sample_rate + 500) mod 2^32) / 1000` frames — the
32-bit unsigned evaluation of `round(duration_ms * sample_rate / 1000)`,
equal to it whenever `duration_ms * sample_rate + 500 < 2^32` — followed
by a silence segment of `((delay_ms * sample_rate + 500) mod 2^32) /
1000` zero frames exactly when that repetition is not the node's final
one or the node's end-delay flag is set.  The first conjunct gives the
emitted stream; the others give the segment sizes (the tone-length law
needs a non-empty block and enough fuel, both guaranteed in any run that
returns normally). -/
theorem claim_C3 (fuel rate : Nat) (ps : List beep_parms_t) (s s' : PState)
    (h : play_blocks fuel rate ps s = .ok s') :
    s'.pushed = s.pushed ++ blocksTrace fuel rate ps ∧
    (∀ (blk : List Int) (dur : Nat), blk ≠ [] → dur ≤ fuel →
      (toneTrace fuel blk dur).length = dur) ∧
    (∀ delay : Nat,
      (silenceTrace rate delay).length = ((delay * rate + 500) % UINT_MOD) / 1000) :=
  ⟨play_blocks_ok fuel rate ps s s' h,
    fun blk dur hb hf => toneTrace_length fuel blk dur hb hf,
    fun delay => by simp [silenceTrace]⟩

/-- Witness for C3: one node, two repetitions with end delay, at a rate
where the arithmetic is overflow-free. -/
theorem claim_C3_witness :
    ((play_blocks 20 1000 [⟨2, 2, 1, true, [5, 6]⟩]
        ⟨8, [], [], [], [], 0⟩).state).pushed =
      ([] : List Int) ++ blocksTrace 20 1000 [⟨2, 2, 1, true, [5, 6]⟩] ∧
    (toneTrace 20 [(5 : Int), 6] 2).length = 2 :=
  ⟨(claim_C3 20 1000 [⟨2, 2, 1, true, [5, 6]⟩] ⟨8, [], [], [], [], 0⟩
      ((play_blocks 20 1000 [⟨2, 2, 1, true, [5, 6]⟩] ⟨8, [], [], [], [], 0⟩).state) rfl).1,
    (claim_C3 20 1000 [⟨2, 2, 1, true, [5, 6]⟩] ⟨8, [], [], [], [], 0⟩
      ((play_blocks 20 1000 [⟨2, 2, 1, true, [5, 6]⟩] ⟨8, [], [], [], [], 0⟩).state) rfl).2.1
      [(5 : Int), 6] 2 (by decide) (by decide)⟩

/-- C6 counterexample: when the buffer is at capacity and the sink
reports an underrun, the flush returns with the buffer still full and
`play_buffered` flushes again, so appending one sample performs two
flushes, not exactly one. -/
theorem claim_C6_cex :
    ((play_buffered 5 [7] ⟨2, [1, 2], [.underrun, .accepted 2], [], [], 0⟩).state).flushes ≠
        (⟨2, [1, 2], [.underrun, .accepted 2], [], [], 0⟩ : PState).flushes + 1 ∧
    ((play_buffered 5 [7] ⟨2, [1, 2], [.underrun, .accepted 2], [], [], 0⟩).state).flushes =
        (⟨2, [1, 2], [.underrun, .accepted 2], [], [], 0⟩ : PState).flushes + 2 ∧
    (⟨2, [1, 2], [.underrun, .accepted 2], [], [], 0⟩ : PState).buffer.length =
        (⟨2, [1, 2], [.underrun, .accepted 2], [], [], 0⟩ : PState).bufferSize ∧
    play_buffered 5 [7] ⟨2, [1, 2], [.underrun, .accepted 2], [], [], 0⟩ =
      .ok ⟨2, [7], [], [.diagUnderrun, .prepare, .wrote [1, 2]], [7], 2⟩ := by
  refine ⟨by decide, by decide, by decide, by decide⟩

/-- C6 (amended): whenever append is called with the buffer at capacity
(and a positive capacity) and returns normally, at least one flush
occurs before the sample is stored, and flushing repeats until space is
available; after the flushes the sample is stored at the end of the
buffer, the pushed stream advances by exactly that sample, and the
buffer never exceeds its configured capacity.  When the first flush
returns normally with the buffer emptied — that is, without reporting an
underrun — exactly one flush occurs. -/
theorem claim_C6 (fuel : Nat) (x : Int) (s s' : PState)
    (hcap : s.buffer.length = s.bufferSize)
    (hpos : 0 < s.bufferSize)
    (h : play_buffered fuel [x] s = .ok s') :
    s.flushes < s'.flushes ∧
    s'.pushed = s.pushed ++ [x] ∧
    s'.buffer.getLast? = some x ∧
    s'.bufferSize = s.bufferSize ∧
    s'.buffer.length ≤ s.bufferSize ∧
    (∀ s1, send_buffer_to_card s = .ok s1 → s1.buffer = [] →
      s'.flushes = s.flushes + 1) := by
  have hpush := play_buffered_ok fuel [x] s s' h
  have hst := play_buffered_state fuel [x] s
  rw [h] at hst
  simp only [Res.state] at hst
  cases fuel with
  | zero => simp [play_buffered] at h
  | succ f =>
    simp only [play_buffered] at h
    split at h
    · rename_i s1 hw
      have hws := waitForSpace_state f s
      rw [hw] at hws
      simp only [Res.state] at hws
      have hne := waitForSpace_ok f s s1 hw
      have hgrow := waitForSpace_grow f s s1 hcap hw
      have hlt : s1.buffer.length < s1.bufferSize := by
        have e1 := hws.1
        have e2 := hws.2.2.1
        omega
      have hmin : min ([x] : List Int).length (s1.bufferSize - s1.buffer.length) = 1 := by
        simp only [List.length_singleton]
        omega
      rw [hmin] at h
      simp only [List.drop_one, List.tail_cons, List.take_succ_cons, List.take_zero,
        play_buffered] at h
      cases h
      refine ⟨?_, ?_, ?_, hst.1, ?_, ?_⟩
      · dsimp only
        exact hgrow
      · exact hpush
      · exact List.getLast?_concat _
      · dsimp only
        rw [List.length_append]
        simp only [List.length_singleton]
        have e1 := hws.1
        omega
      · intro s2 hsend hempty
        cases f with
        | zero => simp [waitForSpace, hcap] at hw
        | succ g =>
          simp only [waitForSpace, if_pos hcap] at hw
          split at hw
          · rename_i s3 hr
            rw [hr] at hsend
            cases hsend
            have hsl := sendLoop_state s.oracle s.bufferSize s.buffer s.events s.pushed
              (s.flushes + 1)
            rw [show sendLoop s.bufferSize s.buffer s.oracle s.events s.pushed (s.flushes + 1)
                = send_buffer_to_card s from rfl, hr] at hsl
            simp only [Res.state] at hsl
            have hcond : ¬ s2.buffer.length = s2.bufferSize := by
              rw [hempty, List.length_nil]
              have e := hsl.1
              omega
            rw [waitForSpace_not_full g s2 hcond] at hw
            cases hw
            dsimp only
            omega
          · rename_i r hne2
            exact absurd hsend (hne2 s2)
    · rename_i r hne
      exact absurd h (hne s')

/-- Witness for C6: a full two-sample buffer whose first flush empties
it, so the append flushes exactly once. -/
theorem claim_C6_witness :
    (⟨2, [1, 2], [.accepted 2], [], [], 0⟩ : PState).flushes <
        ((play_buffered 5 [7] ⟨2, [1, 2], [.accepted 2], [], [], 0⟩).state).flushes ∧
    ((play_buffered 5 [7] ⟨2, [1, 2], [.accepted 2], [], [], 0⟩).state).pushed =
        (⟨2, [1, 2], [.accepted 2], [], [], 0⟩ : PState).pushed ++ [7] ∧
    ((play_buffered 5 [7] ⟨2, [1, 2], [.accepted 2], [], [], 0⟩).state).buffer.getLast? =
        some 7 :=
  ⟨(claim_C6 5 7 ⟨2, [1, 2], [.accepted 2], [], [], 0⟩
      ((play_buffered 5 [7] ⟨2, [1, 2], [.accepted 2], [], [], 0⟩).state)
      (by decide) (by decide) rfl).1,
    (claim_C6 5 7 ⟨2, [1, 2], [.accepted 2], [], [], 0⟩
      ((play_buffered 5 [7] ⟨2, [1, 2], [.accepted 2], [], [], 0⟩).state)
      (by decide) (by decide) rfl).2.1,
    (claim_C6 5 7 ⟨2, [1, 2], [.accepted 2], [], [], 0⟩
      ((play_buffered 5 [7] ⟨2, [1, 2], [.accepted 2], [], [], 0⟩).state)
      (by decide) (by decide) rfl).2.2.1⟩

end Abeep
